import Mathlib

/-!
Shallow embedding of the `bernie_hmac` repository (SHA-256 + HMAC-SHA256 in
Rust, `src/lib.rs` and `src/utils.rs`) and verification of the frozen claims.

Bytes and 32-bit words are modelled as `Nat`; Rust's wrapping 32-bit
arithmetic is explicit `% 2^32`; the one signed computation (`zero_bits` in
`pad`) is modelled over `Int` with Rust's truncating `%` (`Int.tmod`) and
explicit two's-complement wrapping of the `as i32` cast.
-/

set_option maxRecDepth 100000

namespace BernieHmac

/-- Two's-complement wrap of an integer into the `i32` range.
Models Rust `as i32` casts and wrapping `i32` arithmetic. -/
def wrap32s (x : Int) : Int :=
  let e := x % 4294967296
  if e < 2147483648 then e else e - 4294967296

/-- `utils.rs` line 9: `let zero_bits = ((447 - num_bits as i32) % 512 + 512) % 512;`.
The cast and the subtraction wrap into `i32`; `%` is Rust's truncating remainder. -/
def zero_bits_i32 (num_bits : Nat) : Int :=
  ((wrap32s (447 - wrap32s (num_bits : Int))).tmod 512 + 512).tmod 512

/-- `utils.rs` lines 17-23: the big-endian bit extraction
`byte & (1 << (7 - i)) != 0` for `i` in `0..8`. -/
def byteToBits (b : Nat) : List Bool :=
  (List.range 8).map (fun i => (b &&& (1 <<< (7 - i))) != 0)

/-- `utils.rs` lines 54-66: repack one chunk of up to 8 bits into a byte via
`byte |= 1 << (7 - i)` for each set bit. -/
def bitsToByte (bits : List Bool) : Nat :=
  bits.enum.foldl (fun byte p => if p.2 then byte ||| (1 <<< (7 - p.1)) else byte) 0

/-- Fuel-driven worker for `chunks` (structural recursion so that it reduces
definitionally). -/
def chunksGo (n : Nat) : Nat → List α → List (List α)
  | 0, _ => []
  | fuel + 1, l => if l.isEmpty then [] else l.take n :: chunksGo n fuel (l.drop n)

/-- Rust's `slice::chunks(n)`: consecutive chunks of `n` elements, the last one
possibly shorter (used with `n = 8`, `4`, `64`). -/
def chunks (n : Nat) (l : List α) : List (List α) :=
  chunksGo n l.length l

/-- `utils.rs` line 35: `(num_bits as u64).to_be_bytes()`. -/
def u64_be_bytes (n : Nat) : List Nat :=
  (List.range 8).map (fun i => n % 2 ^ 64 / 2 ^ (8 * (7 - i)) % 256)

/-- `utils.rs` lines 12-41: the `bit_vec` built by `pad` — the message bits,
a `true`, `zero_bits` many `false`, and the bits of the 64-bit big-endian
length field (`num_bits` is `data.len() * 8`). -/
def pad_bit_vec (data : List Nat) : List Bool :=
  data.flatMap byteToBits ++ [true]
    ++ List.replicate (zero_bits_i32 (data.length * 8)).toNat false
    ++ (u64_be_bytes (data.length * 8)).flatMap byteToBits

/-- `utils.rs` lines 2-70, `pad`: build `bit_vec`, check divisibility by 512
(returning `None` on failure), and repack the bits into bytes. -/
def pad (data : List Nat) : Option (List Nat) :=
  if (pad_bit_vec data).length % 512 ≠ 0 then none
  else some ((chunks 8 (pad_bit_vec data)).map bitsToByte)

/-- `utils.rs` line 85: `u32::from_be_bytes([c0, c1, c2, c3])` on a 4-byte chunk
(in the program every chunk passed here has exactly 4 bytes). -/
def u32_from_be_bytes (l : List Nat) : Nat :=
  l.getD 0 0 * 2 ^ 24 + l.getD 1 0 * 2 ^ 16 + l.getD 2 0 * 2 ^ 8 + l.getD 3 0

/-- `utils.rs` lines 80-87: one 64-byte chunk into a zero-initialised `[u32; 16]`,
entry `i` written from the `i`-th 4-byte sub-chunk. -/
def parseBlock (outer : List Nat) : List Nat :=
  (List.range 16).map (fun i => u32_from_be_bytes ((chunks 4 outer).getD i []))

/-- `utils.rs` lines 73-91, `parse`: split into 64-byte chunks, each one parsed
into 16 big-endian 32-bit words. -/
def parse (data : List Nat) : List (List Nat) :=
  (chunks 64 data).map parseBlock

/-- `utils.rs` line 94: `(x >> n) | (x << (32 - n))` on `u32` (the left shift
truncates to 32 bits). -/
def rotr (x n : Nat) : Nat :=
  (x >>> n) ||| ((x <<< (32 - n)) % 2 ^ 32)

/-- `utils.rs` line 98: `x >> n`. -/
def shr (x n : Nat) : Nat := x >>> n

/-- `utils.rs` line 102: `(x & y) ^ (!x & z)`; `!x` on `u32` is xor with `0xFFFFFFFF`. -/
def ch (x y z : Nat) : Nat :=
  (x &&& y) ^^^ ((x ^^^ 4294967295) &&& z)

/-- `utils.rs` line 106: `(x & y) ^ (x & z) ^ (y & z)`. -/
def maj (x y z : Nat) : Nat :=
  (x &&& y) ^^^ (x &&& z) ^^^ (y &&& z)

/-- `utils.rs` line 110. -/
def Sigma_256_0 (x : Nat) : Nat := rotr x 2 ^^^ rotr x 13 ^^^ rotr x 22

/-- `utils.rs` line 114. -/
def Sigma_256_1 (x : Nat) : Nat := rotr x 6 ^^^ rotr x 11 ^^^ rotr x 25

/-- `utils.rs` line 118. -/
def sigma_256_0 (x : Nat) : Nat := rotr x 7 ^^^ rotr x 18 ^^^ shr x 3

/-- `utils.rs` line 122. -/
def sigma_256_1 (x : Nat) : Nat := rotr x 17 ^^^ rotr x 19 ^^^ shr x 10

/-- Modelled from the spec: `constants.rs` (providing `INITIAL_HASH`) is not
among the provided sources.  Spec §3: "Initial hash constants: 8 fixed 32-bit
unsigned words"; their values are the standard SHA-256 initial hash words
(written here in decimal), pinned down by the known-answer vectors of spec §8. -/
def INITIAL_HASH : List Nat :=
  [1779033703, 3144134277, 1013904242, 2773480762,
   1359893119, 2600822924, 528734635, 1541459225]

/-- Modelled from the spec: `constants.rs` (providing `PRIME_CUBES`) is not
among the provided sources.  Spec §3: "Round constants: 64 fixed 32-bit
unsigned words (the 'prime cubes' table)"; these are the standard SHA-256
round constants (written here in decimal), pinned down by the known-answer
vectors of spec §8. -/
def PRIME_CUBES : List Nat :=
  [1116352408, 1899447441, 3049323471, 3921009573, 961987163,
   1508970993, 2453635748, 2870763221, 3624381080, 310598401,
   607225278, 1426881987, 1925078388, 2162078206, 2614888103,
   3248222580, 3835390401, 4022224774, 264347078, 604807628,
   770255983, 1249150122, 1555081692, 1996064986, 2554220882,
   2821834349, 2952996808, 3210313671, 3336571891, 3584528711,
   113926993, 338241895, 666307205, 773529912, 1294757372,
   1396182291, 1695183700, 1986661051, 2177026350, 2456956037,
   2730485921, 2820302411, 3259730800, 3345764771, 3516065817,
   3600352804, 4094571909, 275423344, 430227734, 506948616,
   659060556, 883997877, 958139571, 1322822218, 1537002063,
   1747873779, 1955562222, 2024104815, 2227730452, 2361852424,
   2428436474, 2756734187, 3204031479, 3329325298]

/-- Modelled from the spec: `constants.rs` (providing `BLOCKSIZE`) is not among
the provided sources.  Spec §4.5: "block_size (64 bytes)". -/
def BLOCKSIZE : Nat := 64

/-- `lib.rs` lines 36-46: the message schedule array, filled in index order;
words below 16 copy the block, the rest use the chained `wrapping_add` recurrence. -/
def message_schedule (block : List Nat) : List Nat :=
  (List.range 64).foldl (fun W t =>
    if t < 16 then W ++ [block.getD t 0]
    else W ++ [(((sigma_256_1 (W.getD (t - 2) 0) + W.getD (t - 7) 0) % 2 ^ 32
                + sigma_256_0 (W.getD (t - 15) 0)) % 2 ^ 32
                + W.getD (t - 16) 0) % 2 ^ 32]) []

/-- `lib.rs` lines 61-77: one round of the compression loop on the working
variables `[a, b, c, d, e, f, g, h]`. -/
def roundStep (W : List Nat) (vars : List Nat) (t : Nat) : List Nat :=
  match vars with
  | [a, b, c, d, e, f, g, h] =>
    let t1 := ((((h + Sigma_256_1 e) % 2 ^ 32 + ch e f g) % 2 ^ 32
                + PRIME_CUBES.getD t 0) % 2 ^ 32 + W.getD t 0) % 2 ^ 32
    let t2 := (Sigma_256_0 a + maj a b c) % 2 ^ 32
    [(t1 + t2) % 2 ^ 32, a, b, c, (d + t1) % 2 ^ 32, e, f, g]
  | other => other

/-- `lib.rs` lines 34-84: the per-block body of `hash`'s loop — build the
message schedule, run 64 rounds, add the result back into the hash state. -/
def compress (hv block : List Nat) : List Nat :=
  let W := message_schedule block
  let temp := (List.range 64).foldl (roundStep W)
      [hv.getD 0 0, hv.getD 1 0, hv.getD 2 0, hv.getD 3 0,
       hv.getD 4 0, hv.getD 5 0, hv.getD 6 0, hv.getD 7 0]
  List.zipWith (fun t v => (t + v) % 2 ^ 32) temp hv

/-- `lib.rs` line 89: `word.to_be_bytes()` for a `u32`. -/
def u32_be_bytes (w : Nat) : List Nat :=
  [w / 2 ^ 24 % 256, w / 2 ^ 16 % 256, w / 2 ^ 8 % 256, w % 256]

/-- `lib.rs` lines 26-93, `hash`: pad (unwrap), parse, fold the per-block
compression over the blocks in order, serialize the state big-endian.
The `none` branch is unreachable (`pad` always succeeds, see `pad_always_succeeds`). -/
def hash (data : List Nat) : List Nat :=
  match pad data with
  | some padded => ((parse padded).foldl compress INITIAL_HASH).flatMap u32_be_bytes
  | none => []

/-- `lib.rs` lines 10-24, `normalize`: hash oversized keys, then zero-pad to
`BLOCKSIZE` bytes. -/
def normalize (key : List Nat) : List Nat :=
  let nk := if key.length > BLOCKSIZE then hash key else key
  nk ++ List.replicate (BLOCKSIZE - nk.length) 0

/-- `lib.rs` lines 95-122, `hmac`. -/
def hmac (data key : List Nat) : List Nat :=
  let normalized_key := normalize key
  let ipad := List.replicate BLOCKSIZE 0x36
  let opad := List.replicate BLOCKSIZE 0x5c
  let inner_key := List.zipWith (fun k i => k ^^^ i) normalized_key ipad
  let outer_key := List.zipWith (fun k o => k ^^^ o) normalized_key opad
  let inner_hash := hash (inner_key ++ data)
  hash (outer_key ++ inner_hash)

/-- Modelled from the spec: the constant-time byte-equality collaborator
(`subtle::ConstantTimeEq`, external to this repository).  Spec §1/§6/§7: it
returns whether the two byte sequences are equal, with unequal-length inputs
comparing unequal; only its input/output contract is modelled here (timing is
not observable in this embedding). -/
def ct_eq (a b : List Nat) : Bool := a == b

/-- `lib.rs` lines 124-130, `verify_hmac`. -/
def verify_hmac (data received_mac_tag key : List Nat) : Bool :=
  ct_eq (hmac data key) received_mac_tag

/-!
Definitions written from the spec's words (spec §4), to be compared with the
embedding of the source above.
-/

/-- Spec side: the 8 bits of a byte, most significant first, read off with
division and remainder. -/
def specByteBits (b : Nat) : List Bool :=
  (List.range 8).map (fun i => decide (b / 2 ^ (7 - i) % 2 = 1))

/-- Spec side: the 8 bytes of the 64-bit big-endian encoding of `n` (spec §4.1,
"64-bit big-endian original-bit-length"). -/
def spec64Bytes (n : Nat) : List Nat :=
  (List.range 8).map (fun i => n / 2 ^ (8 * (7 - i)) % 256)

/-- Spec side, §4.1: the number of zero padding bits, the least non-negative
residue of `447 - 8L` modulo 512 (written with truncated subtraction so that it
is a plain `Nat` expression; `8*L % 512 ≤ 511 < 959`). -/
def specK (L : Nat) : Nat := (959 - 8 * L % 512) % 512

/-- Spec side, §4.1: `message ‖ 1-bit ‖ k zero-bits ‖ 64-bit big-endian
original-bit-length` as a bit sequence. -/
def specPadBits (m : List Nat) : List Bool :=
  m.flatMap specByteBits ++ [true] ++ List.replicate (specK m.length) false
    ++ (spec64Bytes (8 * m.length)).flatMap specByteBits

/-- Spec side, §4.1: the padded message as bytes (the bit sequence regrouped
into bytes, most significant bit first). -/
def specPad (m : List Nat) : List Nat :=
  (chunks 8 (specPadBits m)).map bitsToByte

/-- Spec side, §4.3: circular right rotation of a 32-bit word, expressed
arithmetically: the low `n` bits move to the top, the rest shift down. -/
def specRotr (x n : Nat) : Nat :=
  x % 2 ^ n * 2 ^ (32 - n) + x / 2 ^ n

/-- Spec side, §4.3: right shift as division. -/
def specShr (x n : Nat) : Nat := x / 2 ^ n

/-- Spec side, §4.3: `Σ0(x) = rotr(x,2) xor rotr(x,13) xor rotr(x,22)`. -/
def specBigSigma0 (x : Nat) : Nat := specRotr x 2 ^^^ specRotr x 13 ^^^ specRotr x 22

/-- Spec side, §4.3: `Σ1(x) = rotr(x,6) xor rotr(x,11) xor rotr(x,25)`. -/
def specBigSigma1 (x : Nat) : Nat := specRotr x 6 ^^^ specRotr x 11 ^^^ specRotr x 25

/-- Spec side, §4.3: `σ0(x) = rotr(x,7) xor rotr(x,18) xor (x >> 3)`. -/
def specSmallSigma0 (x : Nat) : Nat := specRotr x 7 ^^^ specRotr x 18 ^^^ specShr x 3

/-- Spec side, §4.3: `σ1(x) = rotr(x,17) xor rotr(x,19) xor (x >> 10)`. -/
def specSmallSigma1 (x : Nat) : Nat := specRotr x 17 ^^^ specRotr x 19 ^^^ specShr x 10

/-- Spec side, §4.3: `Ch(x,y,z) = (x and y) xor ((not x) and z)` (bitwise
complement within 32 bits). -/
def specCh (x y z : Nat) : Nat := (x &&& y) ^^^ ((x ^^^ (2 ^ 32 - 1)) &&& z)

/-- Spec side, §4.3: `Maj(x,y,z) = (x and y) xor (x and z) xor (y and z)`. -/
def specMaj (x y z : Nat) : Nat := (x &&& y) ^^^ (x &&& z) ^^^ (y &&& z)

/-- Spec side, §4.3 step 1: the 64-word message schedule; words 0-15 copied,
the rest `σ1(W[t-2]) + W[t-7] + σ0(W[t-15]) + W[t-16]` modulo `2^32`. -/
def specSchedule (block : List Nat) : List Nat :=
  (List.range 64).foldl (fun W t =>
    W ++ [if t < 16 then block.getD t 0
          else (specSmallSigma1 (W.getD (t - 2) 0) + W.getD (t - 7) 0
                + specSmallSigma0 (W.getD (t - 15) 0) + W.getD (t - 16) 0) % 2 ^ 32]) []

/-- Spec side, §4.3 step 3: one round; `T1`, `T2` as single sums modulo `2^32`,
then the stated rotation of the eight working variables. -/
def specRound (W : List Nat) (vars : List Nat) (t : Nat) : List Nat :=
  match vars with
  | [a, b, c, d, e, f, g, h] =>
    let T1 := (h + specBigSigma1 e + specCh e f g
               + PRIME_CUBES.getD t 0 + W.getD t 0) % 2 ^ 32
    let T2 := (specBigSigma0 a + specMaj a b c) % 2 ^ 32
    [(T1 + T2) % 2 ^ 32, a, b, c, (d + T1) % 2 ^ 32, e, f, g]
  | other => other

/-- Spec side, §4.3: the compression function — schedule, 64 rounds, add the
working variables back into the state modulo `2^32`. -/
def specCompress (hv block : List Nat) : List Nat :=
  let W := specSchedule block
  let temp := (List.range 64).foldl (specRound W)
      [hv.getD 0 0, hv.getD 1 0, hv.getD 2 0, hv.getD 3 0,
       hv.getD 4 0, hv.getD 5 0, hv.getD 6 0, hv.getD 7 0]
  List.zipWith (fun t v => (t + v) % 2 ^ 32) temp hv

/-- Spec side, §4.2: a 4-byte chunk read as one big-endian word by Horner
folding. -/
def specWordBE (l : List Nat) : Nat := l.foldl (fun acc b => acc * 256 + b) 0

/-- Spec side, §4.2: partition into consecutive 64-byte chunks, each
reinterpreted as 16 big-endian 32-bit words in input order. -/
def specParse (data : List Nat) : List (List Nat) :=
  (chunks 64 data).map (fun c => (chunks 4 c).map specWordBE)

/-- Spec side, §4.4: serialize the final 8-word state, each word big-endian. -/
def specSerialize (hv : List Nat) : List Nat := hv.flatMap u32_be_bytes

/-- Spec side, §4.4: pad → parse → fold the compression over the blocks in
order from the fixed initial constants → serialize. -/
def specHash (m : List Nat) : List Nat :=
  specSerialize ((specParse (specPad m)).foldl specCompress INITIAL_HASH)

/-- Spec side, §4.5 step 1: the normalized key — the key itself if at most 64
bytes, else its digest, right-padded with zero bytes to exactly 64 bytes. -/
def specNormKey (k : List Nat) : List Nat :=
  (if k.length ≤ 64 then k else hash k)
    ++ List.replicate (64 - (if k.length ≤ 64 then k else hash k).length) 0

/-- Spec side, §4.5 step 2: `inner_key = normalized_key xor (0x36 repeated 64
times)`, byte-wise. -/
def specInnerKey (k : List Nat) : List Nat :=
  List.zipWith (fun a b => a ^^^ b) (specNormKey k) (List.replicate 64 0x36)

/-- Spec side, §4.5 step 2: `outer_key = normalized_key xor (0x5c repeated 64
times)`, byte-wise. -/
def specOuterKey (k : List Nat) : List Nat :=
  List.zipWith (fun a b => a ^^^ b) (specNormKey k) (List.replicate 64 0x5c)

/-! ### Helper lemmas: integer arithmetic of `zero_bits` -/

theorem neg_tmod (a b : Int) : (-a).tmod b = -(a.tmod b) := by
  rw [Int.tmod_def, Int.tmod_def, Int.neg_tdiv]
  ring

theorem tmod_fix (y : Int) : (y.tmod 512 + 512).tmod 512 = y % 512 := by
  rcases le_or_lt 0 y with hy | hy
  · rw [Int.tmod_eq_emod hy (by norm_num)]
    have h1 : 0 ≤ y % 512 := Int.emod_nonneg y (by norm_num)
    have h2 : y % 512 < 512 := Int.emod_lt_of_pos y (by norm_num)
    rw [Int.tmod_eq_emod (by omega) (by norm_num)]
    omega
  · have hneg : y.tmod 512 = -((-y).tmod 512) := by rw [neg_tmod]; ring
    rw [hneg, Int.tmod_eq_emod (a := -y) (by omega) (by norm_num)]
    have h1 : 0 ≤ (-y) % 512 := Int.emod_nonneg (-y) (by norm_num)
    have h2 : (-y) % 512 < 512 := Int.emod_lt_of_pos (-y) (by norm_num)
    rw [Int.tmod_eq_emod (by omega) (by norm_num)]
    omega

theorem wrap32s_emod (x : Int) : wrap32s x % 512 = x % 512 := by
  unfold wrap32s
  dsimp only
  split <;> omega

theorem zero_bits_i32_eq (nb : Nat) :
    zero_bits_i32 nb = (((959 - nb % 512) % 512 : Nat) : Int) := by
  unfold zero_bits_i32
  rw [tmod_fix, wrap32s_emod]
  have h1 : wrap32s (nb : Int) % 512 = (nb : Int) % 512 := wrap32s_emod _
  omega

theorem zero_bits_i32_toNat (nb : Nat) :
    (zero_bits_i32 nb).toNat = (959 - nb % 512) % 512 := by
  rw [zero_bits_i32_eq]
  omega

/-! ### Helper lemmas: `chunks` -/

theorem chunksGo_nil (n : Nat) (f : Nat) : chunksGo n f ([] : List α) = [] := by
  cases f <;> simp [chunksGo]

theorem chunksGo_fuel (n : Nat) (hn : 0 < n) :
    ∀ (f1 : Nat) (l : List α) (f2 : Nat), l.length ≤ f1 → l.length ≤ f2 →
      chunksGo n f1 l = chunksGo n f2 l := by
  intro f1
  induction f1 with
  | zero =>
    intro l f2 h1 _
    have : l = [] := List.eq_nil_of_length_eq_zero (Nat.le_zero.mp h1)
    subst this
    rw [chunksGo_nil, chunksGo_nil]
  | succ f ih =>
    intro l f2 h1 h2
    cases l with
    | nil => rw [chunksGo_nil, chunksGo_nil]
    | cons a l' =>
      cases f2 with
      | zero => simp at h2
      | succ f2' =>
        simp only [chunksGo, List.isEmpty_cons, Bool.false_eq_true, if_false]
        congr 1
        apply ih
        · simp only [List.length_drop, List.length_cons] at *
          omega
        · simp only [List.length_drop, List.length_cons] at *
          omega

theorem chunks_cons {n : Nat} (hn : 0 < n) (l : List α) (hne : l ≠ []) :
    chunks n l = l.take n :: chunks n (l.drop n) := by
  unfold chunks
  cases l with
  | nil => exact absurd rfl hne
  | cons a l' =>
    simp only [List.length_cons, chunksGo, List.isEmpty_cons, Bool.false_eq_true, if_false]
    congr 1
    apply chunksGo_fuel n hn
    · simp only [List.length_drop, List.length_cons]
      omega
    · exact Nat.le_refl _

theorem chunks_length_of_mul {n : Nat} (hn : 0 < n) :
    ∀ (k : Nat) (l : List α), l.length = n * k → (chunks n l).length = k := by
  intro k
  induction k with
  | zero =>
    intro l hl
    have : l = [] := List.eq_nil_of_length_eq_zero (by omega)
    subst this
    rfl
  | succ k ih =>
    intro l hl
    have hne : l ≠ [] := by
      intro h
      subst h
      simp [Nat.mul_succ] at hl
      omega
    rw [chunks_cons hn l hne]
    simp only [List.length_cons]
    rw [ih (l.drop n) (by simp [List.length_drop, hl, Nat.mul_succ])]

theorem chunks_mem_length_of_mul {n : Nat} (hn : 0 < n) :
    ∀ (k : Nat) (l : List α), l.length = n * k → ∀ c ∈ chunks n l, c.length = n := by
  intro k
  induction k with
  | zero =>
    intro l hl c hc
    have : l = [] := List.eq_nil_of_length_eq_zero (by omega)
    subst this
    simp [chunks, chunksGo_nil] at hc
  | succ k ih =>
    intro l hl c hc
    have hne : l ≠ [] := by
      intro h
      subst h
      simp [Nat.mul_succ] at hl
      omega
    rw [chunks_cons hn l hne] at hc
    rcases List.mem_cons.mp hc with h | h
    · subst h
      have hle : n ≤ l.length := by
        rw [hl]
        exact Nat.le_mul_of_pos_right n (Nat.succ_pos k)
      simp only [List.length_take]
      omega
    · exact ih (l.drop n) (by simp [List.length_drop, hl, Nat.mul_succ]) c h

theorem chunks_mem_mem_fuel {n : Nat} (hn : 0 < n) :
    ∀ (len : Nat) (l : List α), l.length ≤ len →
      ∀ c ∈ chunks n l, ∀ x ∈ c, x ∈ l := by
  intro len
  induction len with
  | zero =>
    intro l h1 c hc
    have : l = [] := List.eq_nil_of_length_eq_zero (Nat.le_zero.mp h1)
    subst this
    simp [chunks, chunksGo_nil] at hc
  | succ len ih =>
    intro l h1 c hc x hx
    cases l with
    | nil => simp [chunks, chunksGo_nil] at hc
    | cons a l' =>
      rw [chunks_cons hn _ (by simp)] at hc
      rcases List.mem_cons.mp hc with h | h
      · subst h
        exact List.mem_of_mem_take hx
      · have hdrop : ((a :: l').drop n).length ≤ len := by
          simp only [List.length_drop, List.length_cons] at *
          omega
        exact List.mem_of_mem_drop (ih _ hdrop c h x hx)

theorem chunks_mem_mem {n : Nat} (hn : 0 < n) (l : List α) :
    ∀ c ∈ chunks n l, ∀ x ∈ c, x ∈ l :=
  chunks_mem_mem_fuel hn l.length l (Nat.le_refl _)

/-! ### Helper lemmas: bits and bytes -/

theorem byteToBits_testBit (b : Nat) :
    byteToBits b = (List.range 8).map (fun i => b.testBit (7 - i)) := by
  unfold byteToBits
  apply List.map_congr_left
  intro i _
  rw [Nat.one_shiftLeft, Nat.and_two_pow]
  cases hb : b.testBit (7 - i) <;> simp [hb]

theorem specByteBits_testBit (b : Nat) :
    specByteBits b = (List.range 8).map (fun i => b.testBit (7 - i)) := by
  unfold specByteBits
  apply List.map_congr_left
  intro i _
  rw [Nat.testBit_to_div_mod]

theorem byteToBits_eq_specByteBits : byteToBits = specByteBits := by
  funext b
  rw [byteToBits_testBit, specByteBits_testBit]

theorem byteToBits_length (b : Nat) : (byteToBits b).length = 8 := by
  simp [byteToBits]

theorem flatMap_byteToBits_length (l : List Nat) :
    (l.flatMap byteToBits).length = 8 * l.length := by
  induction l with
  | nil => rfl
  | cons a l ih =>
    simp only [List.flatMap_cons, List.length_append, byteToBits_length, ih,
      List.length_cons]
    omega

theorem byteToBits_bitsToByte :
    ∀ c : List Bool, c.length = 8 → byteToBits (bitsToByte c) = c := by
  intro c hc
  rcases c with _ | ⟨b0, c⟩; · simp at hc
  rcases c with _ | ⟨b1, c⟩; · simp at hc
  rcases c with _ | ⟨b2, c⟩; · simp at hc
  rcases c with _ | ⟨b3, c⟩; · simp at hc
  rcases c with _ | ⟨b4, c⟩; · simp at hc
  rcases c with _ | ⟨b5, c⟩; · simp at hc
  rcases c with _ | ⟨b6, c⟩; · simp at hc
  rcases c with _ | ⟨b7, c⟩; · simp at hc
  rcases c with _ | ⟨b8, c⟩
  · revert b0 b1 b2 b3 b4 b5 b6 b7
    decide
  · simp at hc

theorem bitsToByte_lt :
    ∀ c : List Bool, c.length = 8 → bitsToByte c < 256 := by
  intro c hc
  rcases c with _ | ⟨b0, c⟩; · simp at hc
  rcases c with _ | ⟨b1, c⟩; · simp at hc
  rcases c with _ | ⟨b2, c⟩; · simp at hc
  rcases c with _ | ⟨b3, c⟩; · simp at hc
  rcases c with _ | ⟨b4, c⟩; · simp at hc
  rcases c with _ | ⟨b5, c⟩; · simp at hc
  rcases c with _ | ⟨b6, c⟩; · simp at hc
  rcases c with _ | ⟨b7, c⟩; · simp at hc
  rcases c with _ | ⟨b8, c⟩
  · revert b0 b1 b2 b3 b4 b5 b6 b7
    decide
  · simp at hc

theorem chunks8_roundtrip :
    ∀ (f : Nat) (l : List Bool), l.length ≤ f → 8 ∣ l.length →
      ((chunksGo 8 f l).map bitsToByte).flatMap byteToBits = l := by
  intro f
  induction f with
  | zero =>
    intro l h1 _
    have : l = [] := List.eq_nil_of_length_eq_zero (Nat.le_zero.mp h1)
    subst this
    rfl
  | succ f ih =>
    intro l h1 h2
    cases l with
    | nil => rfl
    | cons a l' =>
      simp only [chunksGo, List.isEmpty_cons, Bool.false_eq_true, if_false,
        List.map_cons, List.flatMap_cons]
      have hlen8 : 8 ≤ (a :: l').length := by
        rcases h2 with ⟨k, hk⟩
        simp only [List.length_cons] at *
        omega
      have htake : ((a :: l').take 8).length = 8 := by
        simp only [List.length_take]
        omega
      rw [byteToBits_bitsToByte _ htake]
      rw [ih ((a :: l').drop 8)
          (by simp only [List.length_drop, List.length_cons] at *; omega)
          (by rcases h2 with ⟨k, hk⟩
              simp only [List.length_drop]
              exact ⟨k - 1, by simp only [List.length_cons] at *; omega⟩)]
      exact List.take_append_drop 8 (a :: l')

/-! ### Helper lemmas: `pad` -/

theorem u64_be_bytes_length (n : Nat) : (u64_be_bytes n).length = 8 := by
  simp [u64_be_bytes]

theorem pad_bit_vec_length (data : List Nat) :
    (pad_bit_vec data).length
      = 8 * data.length + 65 + (959 - data.length * 8 % 512) % 512 := by
  unfold pad_bit_vec
  simp only [List.length_append, flatMap_byteToBits_length, List.length_replicate,
    List.length_cons, List.length_nil, zero_bits_i32_toNat, u64_be_bytes_length]
  omega

theorem pad_bit_vec_length_mod (data : List Nat) :
    (pad_bit_vec data).length % 512 = 0 := by
  rw [pad_bit_vec_length]
  omega

theorem pad_eq_some (data : List Nat) :
    pad data = some ((chunks 8 (pad_bit_vec data)).map bitsToByte) := by
  unfold pad
  rw [if_neg]
  simp [pad_bit_vec_length_mod]

theorem u64_be_bytes_eq_spec64Bytes (n : Nat) : u64_be_bytes n = spec64Bytes n := by
  unfold u64_be_bytes spec64Bytes
  apply List.map_congr_left
  intro i hi
  have hi8 : i < 8 := List.mem_range.mp hi
  interval_cases i <;> norm_num <;> omega

theorem specPadBits_eq_pad_bit_vec (m : List Nat) :
    specPadBits m = pad_bit_vec m := by
  unfold specPadBits pad_bit_vec
  rw [byteToBits_eq_specByteBits, u64_be_bytes_eq_spec64Bytes, zero_bits_i32_toNat,
    Nat.mul_comm m.length 8]
  rfl

theorem pad_eq_some_specPad (m : List Nat) : pad m = some (specPad m) := by
  rw [pad_eq_some]
  unfold specPad
  rw [specPadBits_eq_pad_bit_vec]

theorem pad_bit_vec_dvd8 (data : List Nat) :
    (pad_bit_vec data).length = 8 * ((pad_bit_vec data).length / 8) := by
  have h := pad_bit_vec_length_mod data
  omega

theorem pad_bytes_lt (m : List Nat) :
    ∀ b ∈ (chunks 8 (pad_bit_vec m)).map bitsToByte, b < 256 := by
  intro b hb
  rcases List.mem_map.mp hb with ⟨c, hc, rfl⟩
  apply bitsToByte_lt
  exact chunks_mem_length_of_mul (by norm_num) ((pad_bit_vec m).length / 8)
    (pad_bit_vec m) (pad_bit_vec_dvd8 m) c hc

theorem pad_bytes_roundtrip (m : List Nat) :
    (((chunks 8 (pad_bit_vec m)).map bitsToByte).flatMap byteToBits)
      = pad_bit_vec m := by
  unfold chunks
  apply chunks8_roundtrip
  · exact Nat.le_refl _
  · exact ⟨(pad_bit_vec m).length / 8, pad_bit_vec_dvd8 m⟩

theorem pad_output_length (m : List Nat) :
    ((chunks 8 (pad_bit_vec m)).map bitsToByte).length
      = (pad_bit_vec m).length / 8 := by
  rw [List.length_map]
  exact chunks_length_of_mul (by norm_num) _ _ (pad_bit_vec_dvd8 m)

/-! ### Helper lemmas: 32-bit word operations -/

theorem getD_lt {l : List Nat} {B : Nat} (hB : 0 < B) (h : ∀ x ∈ l, x < B)
    (i : Nat) : l.getD i 0 < B := by
  rcases Nat.lt_or_ge i l.length with hi | hi
  · rw [List.getD_eq_getElem l 0 hi]
    exact h _ (List.getElem_mem hi)
  · rw [List.getD_eq_default l 0 hi]
    exact hB

theorem two_pow_mul_add_eq_or {b k : Nat} (a : Nat) (hb : b < 2 ^ k) :
    2 ^ k * a + b = (2 ^ k * a) ||| b := by
  apply Nat.eq_of_testBit_eq
  intro j
  rw [Nat.testBit_or, Nat.testBit_mul_pow_two_add a hb j]
  have h2 : 2 ^ k * a = a <<< k := by rw [Nat.shiftLeft_eq, Nat.mul_comm]
  rw [h2, Nat.testBit_shiftLeft]
  by_cases hj : j < k
  · have : ¬ (j ≥ k) := Nat.not_le.mpr hj
    simp [hj, this]
  · have hge : j ≥ k := Nat.le_of_not_lt hj
    have hbj : b.testBit j = false :=
      Nat.testBit_lt_two_pow (lt_of_lt_of_le hb (Nat.pow_le_pow_right (by norm_num) hge))
    simp [hj, hge, hbj]

theorem rotr_eq_specRotr (x n : Nat) (hx : x < 2 ^ 32) (hn0 : 0 < n)
    (hn : n < 32) : rotr x n = specRotr x n := by
  unfold rotr specRotr
  rw [Nat.shiftRight_eq_div_pow, Nat.shiftLeft_eq]
  have hmod : (x * 2 ^ (32 - n)) % 2 ^ 32 = x % 2 ^ n * 2 ^ (32 - n) := by
    have h32 : (2 : Nat) ^ 32 = 2 ^ n * 2 ^ (32 - n) := by
      rw [← pow_add]
      congr 1
      omega
    rw [h32, Nat.mul_mod_mul_right]
  rw [hmod]
  have hlt : x / 2 ^ n < 2 ^ (32 - n) := by
    apply Nat.div_lt_of_lt_mul
    have h32 : (2 : Nat) ^ 32 = 2 ^ n * 2 ^ (32 - n) := by
      rw [← pow_add]
      congr 1
      omega
    rw [← h32]
    exact hx
  calc x / 2 ^ n ||| x % 2 ^ n * 2 ^ (32 - n)
      = 2 ^ (32 - n) * (x % 2 ^ n) ||| x / 2 ^ n := by
        rw [Nat.lor_comm, Nat.mul_comm]
    _ = 2 ^ (32 - n) * (x % 2 ^ n) + x / 2 ^ n :=
        (two_pow_mul_add_eq_or (x % 2 ^ n) hlt).symm
    _ = x % 2 ^ n * 2 ^ (32 - n) + x / 2 ^ n := by rw [Nat.mul_comm]

theorem shr_eq_specShr (x n : Nat) : shr x n = specShr x n := by
  unfold shr specShr
  rw [Nat.shiftRight_eq_div_pow]

theorem Sigma_256_0_eq_spec (x : Nat) (hx : x < 2 ^ 32) :
    Sigma_256_0 x = specBigSigma0 x := by
  unfold Sigma_256_0 specBigSigma0
  rw [rotr_eq_specRotr x 2 hx (by norm_num) (by norm_num),
    rotr_eq_specRotr x 13 hx (by norm_num) (by norm_num),
    rotr_eq_specRotr x 22 hx (by norm_num) (by norm_num)]

theorem Sigma_256_1_eq_spec (x : Nat) (hx : x < 2 ^ 32) :
    Sigma_256_1 x = specBigSigma1 x := by
  unfold Sigma_256_1 specBigSigma1
  rw [rotr_eq_specRotr x 6 hx (by norm_num) (by norm_num),
    rotr_eq_specRotr x 11 hx (by norm_num) (by norm_num),
    rotr_eq_specRotr x 25 hx (by norm_num) (by norm_num)]

theorem sigma_256_0_eq_spec (x : Nat) (hx : x < 2 ^ 32) :
    sigma_256_0 x = specSmallSigma0 x := by
  unfold sigma_256_0 specSmallSigma0
  rw [rotr_eq_specRotr x 7 hx (by norm_num) (by norm_num),
    rotr_eq_specRotr x 18 hx (by norm_num) (by norm_num), shr_eq_specShr]

theorem sigma_256_1_eq_spec (x : Nat) (hx : x < 2 ^ 32) :
    sigma_256_1 x = specSmallSigma1 x := by
  unfold sigma_256_1 specSmallSigma1
  rw [rotr_eq_specRotr x 17 hx (by norm_num) (by norm_num),
    rotr_eq_specRotr x 19 hx (by norm_num) (by norm_num), shr_eq_specShr]

theorem ch_eq_specCh (x y z : Nat) : ch x y z = specCh x y z := by
  unfold ch specCh
  norm_num

theorem maj_eq_specMaj (x y z : Nat) : maj x y z = specMaj x y z := rfl

/-! ### Helper lemmas: folds with an invariant -/

theorem foldl_congr_inv {α β : Type} (P : α → Prop) (f g : α → β → α) :
    ∀ (l : List β) (init : α), P init →
      (∀ s b, P s → b ∈ l → f s b = g s b ∧ P (f s b)) →
      l.foldl f init = l.foldl g init ∧ P (l.foldl f init) := by
  intro l
  induction l with
  | nil => exact fun init h _ => ⟨rfl, h⟩
  | cons b l ih =>
    intro init h hstep
    have hb := hstep init b h (List.mem_cons_self b l)
    simp only [List.foldl_cons]
    rw [← hb.1]
    exact ih (f init b) hb.2 (fun s x hs hx => hstep s x hs (List.mem_cons_of_mem _ hx))

theorem foldl_inv {α β : Type} (P : α → Prop) (f : α → β → α) :
    ∀ (l : List β) (init : α), P init →
      (∀ s b, P s → b ∈ l → P (f s b)) → P (l.foldl f init) := by
  intro l
  induction l with
  | nil => exact fun init h _ => h
  | cons b l ih =>
    intro init h hstep
    simp only [List.foldl_cons]
    exact ih (f init b) (hstep init b h (List.mem_cons_self b l))
      (fun s x hs hx => hstep s x hs (List.mem_cons_of_mem _ hx))

/-! ### Helper lemmas: compression -/

theorem message_schedule_eq_spec (block : List Nat) (hb : ∀ w ∈ block, w < 2 ^ 32) :
    message_schedule block = specSchedule block := by
  unfold message_schedule specSchedule
  refine (foldl_congr_inv (fun W => ∀ w ∈ W, w < 2 ^ 32) _ _ (List.range 64) []
    (by simp) ?_).1
  intro W t hW _
  constructor
  · by_cases h16 : t < 16
    · simp only [if_pos h16]
    · simp only [if_neg h16]
      have hs1 := sigma_256_1_eq_spec (W.getD (t - 2) 0) (getD_lt (by norm_num) hW _)
      have hs0 := sigma_256_0_eq_spec (W.getD (t - 15) 0) (getD_lt (by norm_num) hW _)
      rw [hs1, hs0]
      congr 1
      congr 1
      omega
  · intro w hw
    by_cases h16 : t < 16
    · simp only [if_pos h16, List.mem_append, List.mem_singleton] at hw
      rcases hw with hw | rfl
      · exact hW w hw
      · exact getD_lt (by norm_num) hb _
    · simp only [if_neg h16, List.mem_append, List.mem_singleton] at hw
      rcases hw with hw | rfl
      · exact hW w hw
      · exact Nat.mod_lt _ (by norm_num)

theorem roundStep_eq_specRound (W : List Nat) (t : Nat) :
    ∀ vars : List Nat, vars.length = 8 → (∀ v ∈ vars, v < 2 ^ 32) →
      roundStep W vars t = specRound W vars t := by
  intro vars hlen hv
  rcases vars with _ | ⟨a, vars⟩; · simp at hlen
  rcases vars with _ | ⟨b, vars⟩; · simp at hlen
  rcases vars with _ | ⟨c, vars⟩; · simp at hlen
  rcases vars with _ | ⟨d, vars⟩; · simp at hlen
  rcases vars with _ | ⟨e, vars⟩; · simp at hlen
  rcases vars with _ | ⟨f, vars⟩; · simp at hlen
  rcases vars with _ | ⟨g, vars⟩; · simp at hlen
  rcases vars with _ | ⟨h, vars⟩; · simp at hlen
  rcases vars with _ | ⟨x, vars⟩
  · have ha : a < 2 ^ 32 := hv a (by simp)
    have he : e < 2 ^ 32 := hv e (by simp)
    simp only [roundStep, specRound]
    have h1 : ((((h + Sigma_256_1 e) % 2 ^ 32 + ch e f g) % 2 ^ 32
          + PRIME_CUBES.getD t 0) % 2 ^ 32 + W.getD t 0) % 2 ^ 32
        = (h + specBigSigma1 e + specCh e f g
           + PRIME_CUBES.getD t 0 + W.getD t 0) % 2 ^ 32 := by
      rw [Sigma_256_1_eq_spec e he, ch_eq_specCh]
      omega
    have h2 : (Sigma_256_0 a + maj a b c) % 2 ^ 32
        = (specBigSigma0 a + specMaj a b c) % 2 ^ 32 := by
      rw [Sigma_256_0_eq_spec a ha, maj_eq_specMaj]
    rw [h1, h2]
  · simp at hlen

theorem roundStep_length (W : List Nat) (t : Nat) :
    ∀ vars : List Nat, vars.length = 8 → (roundStep W vars t).length = 8 := by
  intro vars hlen
  rcases vars with _ | ⟨a, vars⟩; · simp at hlen
  rcases vars with _ | ⟨b, vars⟩; · simp at hlen
  rcases vars with _ | ⟨c, vars⟩; · simp at hlen
  rcases vars with _ | ⟨d, vars⟩; · simp at hlen
  rcases vars with _ | ⟨e, vars⟩; · simp at hlen
  rcases vars with _ | ⟨f, vars⟩; · simp at hlen
  rcases vars with _ | ⟨g, vars⟩; · simp at hlen
  rcases vars with _ | ⟨h, vars⟩; · simp at hlen
  rcases vars with _ | ⟨x, vars⟩
  · rfl
  · simp at hlen

theorem roundStep_bound (W : List Nat) (t : Nat) :
    ∀ vars : List Nat, vars.length = 8 → (∀ v ∈ vars, v < 2 ^ 32) →
      ∀ v ∈ roundStep W vars t, v < 2 ^ 32 := by
  intro vars hlen hv
  rcases vars with _ | ⟨a, vars⟩; · simp at hlen
  rcases vars with _ | ⟨b, vars⟩; · simp at hlen
  rcases vars with _ | ⟨c, vars⟩; · simp at hlen
  rcases vars with _ | ⟨d, vars⟩; · simp at hlen
  rcases vars with _ | ⟨e, vars⟩; · simp at hlen
  rcases vars with _ | ⟨f, vars⟩; · simp at hlen
  rcases vars with _ | ⟨g, vars⟩; · simp at hlen
  rcases vars with _ | ⟨h, vars⟩; · simp at hlen
  rcases vars with _ | ⟨x, vars⟩
  · intro v hvv
    simp only [roundStep, List.mem_cons, List.not_mem_nil, or_false] at hvv
    rcases hvv with rfl | rfl | rfl | rfl | rfl | rfl | rfl | rfl
    · exact Nat.mod_lt _ (by norm_num)
    · exact hv _ (by simp)
    · exact hv _ (by simp)
    · exact hv _ (by simp)
    · exact Nat.mod_lt _ (by norm_num)
    · exact hv _ (by simp)
    · exact hv _ (by simp)
    · exact hv _ (by simp)
  · simp at hlen

theorem zipWith_mod_bound :
    ∀ (l1 l2 : List Nat), ∀ x ∈ List.zipWith (fun a b => (a + b) % 2 ^ 32) l1 l2,
      x < 2 ^ 32 := by
  intro l1
  induction l1 with
  | nil =>
    intro l2 x hx
    simp at hx
  | cons a l ih =>
    intro l2 x hx
    cases l2 with
    | nil => simp at hx
    | cons b l2 =>
      simp only [List.zipWith_cons_cons, List.mem_cons] at hx
      rcases hx with rfl | hx
      · exact Nat.mod_lt _ (by norm_num)
      · exact ih l2 x hx

theorem compress_eq_specCompress (hv block : List Nat)
    (hhv : ∀ v ∈ hv, v < 2 ^ 32) (hb : ∀ w ∈ block, w < 2 ^ 32) :
    compress hv block = specCompress hv block := by
  simp only [compress, specCompress]
  rw [← message_schedule_eq_spec block hb]
  have hinit : ([hv.getD 0 0, hv.getD 1 0, hv.getD 2 0, hv.getD 3 0,
      hv.getD 4 0, hv.getD 5 0, hv.getD 6 0, hv.getD 7 0].length = 8)
      ∧ ∀ v ∈ [hv.getD 0 0, hv.getD 1 0, hv.getD 2 0, hv.getD 3 0,
          hv.getD 4 0, hv.getD 5 0, hv.getD 6 0, hv.getD 7 0], v < 2 ^ 32 := by
    refine ⟨rfl, ?_⟩
    intro v hvv
    simp only [List.mem_cons, List.not_mem_nil, or_false] at hvv
    rcases hvv with rfl | rfl | rfl | rfl | rfl | rfl | rfl | rfl <;>
      exact getD_lt (by norm_num) hhv _
  have hfold := foldl_congr_inv
    (fun vars : List Nat => vars.length = 8 ∧ ∀ v ∈ vars, v < 2 ^ 32)
    (roundStep (message_schedule block)) (specRound (message_schedule block))
    (List.range 64) _ hinit
    (fun s b hs _ =>
      ⟨roundStep_eq_specRound (message_schedule block) b s hs.1 hs.2,
       roundStep_length _ _ s hs.1, roundStep_bound _ _ s hs.1 hs.2⟩)
  rw [hfold.1]

theorem compress_length (hv block : List Nat) (h : hv.length = 8) :
    (compress hv block).length = 8 := by
  simp only [compress]
  rw [List.length_zipWith]
  have htemp := foldl_inv (fun vars : List Nat => vars.length = 8)
    (roundStep (message_schedule block)) (List.range 64)
    [hv.getD 0 0, hv.getD 1 0, hv.getD 2 0, hv.getD 3 0,
     hv.getD 4 0, hv.getD 5 0, hv.getD 6 0, hv.getD 7 0] rfl
    (fun s b hs _ => roundStep_length _ _ s hs)
  rw [htemp, h]
  norm_num

theorem compress_bound (hv block : List Nat) :
    ∀ v ∈ compress hv block, v < 2 ^ 32 := by
  simp only [compress]
  exact zipWith_mod_bound _ _

/-! ### Helper lemmas: `parse` and `hash` -/

theorem u32_from_be_bytes_eq_specWordBE :
    ∀ c : List Nat, c.length = 4 → u32_from_be_bytes c = specWordBE c := by
  intro c hc
  rcases c with _ | ⟨b0, c⟩; · simp at hc
  rcases c with _ | ⟨b1, c⟩; · simp at hc
  rcases c with _ | ⟨b2, c⟩; · simp at hc
  rcases c with _ | ⟨b3, c⟩; · simp at hc
  rcases c with _ | ⟨b4, c⟩
  · simp only [u32_from_be_bytes, specWordBE, List.getD_cons_zero, List.getD_cons_succ,
      List.foldl_cons, List.foldl_nil]
    ring
  · simp at hc

theorem parseBlock_eq_specWords (outer : List Nat) (h : outer.length = 64) :
    parseBlock outer = (chunks 4 outer).map specWordBE := by
  have h16 : (chunks 4 outer).length = 16 :=
    chunks_length_of_mul (by norm_num) 16 outer (by rw [h])
  have hmem : ∀ c ∈ chunks 4 outer, c.length = 4 :=
    chunks_mem_length_of_mul (by norm_num) 16 outer (by rw [h])
  unfold parseBlock
  apply List.ext_getElem
  · simp [h16]
  · intro i h1 h2
    simp only [List.getElem_map, List.getElem_range]
    have hi : i < (chunks 4 outer).length := by
      rw [h16]
      simpa using h1
    rw [List.getD_eq_getElem _ _ hi]
    exact u32_from_be_bytes_eq_specWordBE _ (hmem _ (List.getElem_mem hi))

theorem parse_eq_specParse (data : List Nat) (h : 64 ∣ data.length) :
    parse data = specParse data := by
  unfold parse specParse
  apply List.map_congr_left
  intro c hc
  rcases h with ⟨k, hk⟩
  exact parseBlock_eq_specWords c (chunks_mem_length_of_mul (by norm_num) k data hk c hc)

theorem parse_words_bound (data : List Nat) (hbytes : ∀ b ∈ data, b < 256) :
    ∀ block ∈ parse data, ∀ w ∈ block, w < 2 ^ 32 := by
  intro block hb w hw
  unfold parse at hb
  rcases List.mem_map.mp hb with ⟨outer, houter, rfl⟩
  unfold parseBlock at hw
  rcases List.mem_map.mp hw with ⟨i, _, rfl⟩
  have houterb : ∀ x ∈ outer, x < 256 :=
    fun x hx => hbytes x (chunks_mem_mem (by norm_num) data outer houter x hx)
  have hinnerb : ∀ x ∈ (chunks 4 outer).getD i [], x < 256 := by
    rcases Nat.lt_or_ge i (chunks 4 outer).length with hi | hi
    · rw [List.getD_eq_getElem _ _ hi]
      intro x hx
      exact houterb x (chunks_mem_mem (by norm_num) outer _ (List.getElem_mem hi) x hx)
    · rw [List.getD_eq_default _ _ hi]
      intro x hx
      simp at hx
  unfold u32_from_be_bytes
  have h0 := getD_lt (by norm_num : (0 : Nat) < 256) hinnerb 0
  have h1 := getD_lt (by norm_num : (0 : Nat) < 256) hinnerb 1
  have h2 := getD_lt (by norm_num : (0 : Nat) < 256) hinnerb 2
  have h3 := getD_lt (by norm_num : (0 : Nat) < 256) hinnerb 3
  omega

theorem flatMap_u32_be_bytes_length (l : List Nat) :
    (l.flatMap u32_be_bytes).length = 4 * l.length := by
  induction l with
  | nil => rfl
  | cons a l ih =>
    simp only [List.flatMap_cons, List.length_append, ih, List.length_cons, u32_be_bytes,
      List.length_nil]
    omega

theorem specPad_eq_code (m : List Nat) :
    specPad m = (chunks 8 (pad_bit_vec m)).map bitsToByte := by
  unfold specPad
  rw [specPadBits_eq_pad_bit_vec]

theorem specPad_length_dvd64 (m : List Nat) : 64 ∣ (specPad m).length := by
  rw [specPad_eq_code, pad_output_length]
  have h := pad_bit_vec_length_mod m
  exact Nat.dvd_of_mod_eq_zero (by omega)

theorem specPad_bytes_lt (m : List Nat) : ∀ b ∈ specPad m, b < 256 := by
  rw [specPad_eq_code]
  exact pad_bytes_lt m

theorem hash_eq_specHash (m : List Nat) : hash m = specHash m := by
  unfold hash specHash
  rw [pad_eq_some_specPad m]
  dsimp only
  rw [parse_eq_specParse _ (specPad_length_dvd64 m)]
  unfold specSerialize
  have hstep : ∀ (s : List Nat) (b : List Nat),
      (s.length = 8 ∧ ∀ v ∈ s, v < 2 ^ 32) → b ∈ specParse (specPad m) →
        compress s b = specCompress s b
          ∧ ((compress s b).length = 8 ∧ ∀ v ∈ compress s b, v < 2 ^ 32) := by
    intro s b hs hbmem
    have hwords : ∀ w ∈ b, w < 2 ^ 32 := by
      have hpw := parse_words_bound (specPad m) (specPad_bytes_lt m)
      rw [parse_eq_specParse _ (specPad_length_dvd64 m)] at hpw
      exact hpw b hbmem
    exact ⟨compress_eq_specCompress s b hs.2 hwords,
      compress_length s b hs.1, compress_bound s b⟩
  have hfold := (foldl_congr_inv
    (fun s : List Nat => s.length = 8 ∧ ∀ v ∈ s, v < 2 ^ 32)
    compress specCompress (specParse (specPad m)) INITIAL_HASH
    ⟨rfl, by decide⟩ hstep).1
  rw [hfold]

theorem hash_length32 (m : List Nat) : (hash m).length = 32 := by
  unfold hash
  rw [pad_eq_some m]
  dsimp only
  rw [flatMap_u32_be_bytes_length]
  have hfin := foldl_inv (fun s : List Nat => s.length = 8) compress
    (parse ((chunks 8 (pad_bit_vec m)).map bitsToByte)) INITIAL_HASH rfl
    (fun s b hs _ => compress_length s b hs)
  rw [hfin]

/-! ### Helper lemmas: `normalize`, `hmac`, `verify_hmac` -/

theorem normalize_eq_specNormKey (k : List Nat) : normalize k = specNormKey k := by
  simp only [normalize, specNormKey, BLOCKSIZE]
  by_cases h : 64 < k.length
  · rw [if_pos h, if_neg (by omega : ¬ k.length ≤ 64)]
  · rw [if_neg h, if_pos (by omega : k.length ≤ 64)]

theorem normalize_length (k : List Nat) : (normalize k).length = 64 := by
  simp only [normalize, BLOCKSIZE]
  by_cases h : 64 < k.length
  · rw [if_pos h]
    simp only [List.length_append, List.length_replicate, hash_length32]
  · rw [if_neg h]
    simp only [List.length_append, List.length_replicate]
    omega

theorem hmac_eq_spec (m k : List Nat) :
    hmac m k = hash (specOuterKey k ++ hash (specInnerKey k ++ m)) := by
  simp only [hmac, specInnerKey, specOuterKey, BLOCKSIZE]
  rw [normalize_eq_specNormKey]

theorem hmac_length32 (m k : List Nat) : (hmac m k).length = 32 := by
  simp only [hmac]
  exact hash_length32 _

/-! ## The claims -/

/-- C1: for every 8-word hash state and every 16-word message block (of 32-bit
words), the compression step implemented in the body of `hash` equals the
spec's algorithm: the schedule recurrence, the 64 rounds with `T1`/`T2` and the
stated rotation of the working variables, the final element-wise addition —
and `rotr`, `Σ0`, `Σ1`, `σ0`, `σ1`, `Ch`, `Maj` match the spec's bitwise
definitions on 32-bit words. -/
theorem compression_step_matches_spec (hv block : List Nat)
    (hlen : hv.length = 8) (hblen : block.length = 16)
    (hhv : ∀ v ∈ hv, v < 2 ^ 32) (hb : ∀ w ∈ block, w < 2 ^ 32) :
    compress hv block = specCompress hv block
      ∧ message_schedule block = specSchedule block
      ∧ (∀ x n, x < 2 ^ 32 → 0 < n → n < 32 → rotr x n = specRotr x n)
      ∧ (∀ x, x < 2 ^ 32 →
          Sigma_256_0 x = specBigSigma0 x ∧ Sigma_256_1 x = specBigSigma1 x
            ∧ sigma_256_0 x = specSmallSigma0 x ∧ sigma_256_1 x = specSmallSigma1 x)
      ∧ (∀ x y z, ch x y z = specCh x y z ∧ maj x y z = specMaj x y z) :=
  ⟨compress_eq_specCompress hv block hhv hb,
   message_schedule_eq_spec block hb,
   fun x n hx hn0 hn => rotr_eq_specRotr x n hx hn0 hn,
   fun x hx => ⟨Sigma_256_0_eq_spec x hx, Sigma_256_1_eq_spec x hx,
     sigma_256_0_eq_spec x hx, sigma_256_1_eq_spec x hx⟩,
   fun x y z => ⟨ch_eq_specCh x y z, maj_eq_specMaj x y z⟩⟩

/-- Witness for C1 at a concrete state and block. -/
theorem compression_step_matches_spec_witness :
    compress INITIAL_HASH (List.range 16) = specCompress INITIAL_HASH (List.range 16) :=
  (compression_step_matches_spec INITIAL_HASH (List.range 16)
    (by decide) (by decide) (by decide) (by decide)).1

/-- C2: for every byte sequence `m`, `pad m` succeeds and the bit content of
its output is exactly `m`'s bits, a single 1 bit, `k` zero bits and the 64-bit
big-endian encoding of `8 * len m`, where `k` is the smallest non-negative
integer with `(8 * len m + 1 + k) % 512 = 448` (`specK (len m)` below; the
conjuncts pin it as that smallest integer). -/
theorem pad_bit_content_matches_spec (m : List Nat) (hm : ∀ b ∈ m, b < 256) :
    (8 * m.length + 1 + specK m.length) % 512 = 448
    ∧ (∀ j, j < specK m.length → (8 * m.length + 1 + j) % 512 ≠ 448)
    ∧ (pad m).map (fun out => out.flatMap specByteBits)
        = some (m.flatMap specByteBits ++ [true]
            ++ List.replicate (specK m.length) false
            ++ (spec64Bytes (8 * m.length)).flatMap specByteBits) := by
  refine ⟨?_, ?_, ?_⟩
  · simp only [specK]
    omega
  · intro j hj
    simp only [specK] at hj
    omega
  · rw [pad_eq_some m, Option.map_some']
    congr 1
    rw [← byteToBits_eq_specByteBits, pad_bytes_roundtrip m,
      byteToBits_eq_specByteBits, ← specPadBits_eq_pad_bit_vec]
    rfl

/-- Witness for C2 at the empty byte sequence: one padded block, a 1 bit,
447 zero bits, and an all-zero 64-bit length field. -/
theorem pad_bit_content_matches_spec_witness :
    (pad []).map (fun out => out.flatMap specByteBits)
      = some (([] : List Nat).flatMap specByteBits ++ [true]
          ++ List.replicate (specK (List.length ([] : List Nat))) false
          ++ (spec64Bytes (8 * List.length ([] : List Nat))).flatMap specByteBits) :=
  (pad_bit_content_matches_spec [] (by simp)).2.2

/-- C3: for every byte sequence `m`, `hash m` equals the strict spec pipeline
(pad, parse into big-endian 16-word blocks, fold the spec compression from the
fixed initial constants strictly in order, serialize big-endian), and the
digest is exactly 32 bytes. -/
theorem hash_matches_spec_pipeline (m : List Nat) :
    hash m = specHash m ∧ (hash m).length = 32 :=
  ⟨hash_eq_specHash m, hash_length32 m⟩

/-- C4: for every message and key, `hmac` is the nested construction
`hash (outer_key ++ hash (inner_key ++ m))` over the spec's normalized key,
and the normalized key always has length exactly 64. -/
theorem hmac_matches_spec (m k : List Nat) :
    hmac m k = hash (specOuterKey k ++ hash (specInnerKey k ++ m))
      ∧ normalize k = specNormKey k
      ∧ (normalize k).length = 64 :=
  ⟨hmac_eq_spec m k, normalize_eq_specNormKey k, normalize_length k⟩

/-- C5: verification accepts the correct tag, and rejects every 32-byte tag
differing from `hmac m k` in at least one byte. -/
theorem verify_hmac_correct (m k t : List Nat) (hlen : t.length = 32)
    (hdiff : ∃ i, i < 32 ∧ t.getD i 0 ≠ (hmac m k).getD i 0) :
    verify_hmac m (hmac m k) k = true ∧ verify_hmac m t k = false := by
  constructor
  · simp only [verify_hmac, ct_eq]
    exact beq_self_eq_true (hmac m k)
  · simp only [verify_hmac, ct_eq]
    apply beq_eq_false_iff_ne.mpr
    rcases hdiff with ⟨i, _, hne⟩
    intro he
    rw [he] at hne
    exact hne rfl

/-- Witness for C5: the empty message and key, with the all-zero 32-byte tag
(which differs from the true tag in byte 0). -/
theorem verify_hmac_correct_witness :
    verify_hmac [] (hmac [] []) [] = true
      ∧ verify_hmac [] (List.replicate 32 0) [] = false :=
  verify_hmac_correct [] [] (List.replicate 32 0) (by simp)
    ⟨0, by norm_num, by decide⟩

/-- C6: for every message byte length `L`, the signed-arithmetic `zero_bits`
expression of `pad` (i32 wrap-around cast, Rust truncating remainder) is
non-negative and equals the spec's `k`: the smallest non-negative integer with
`(8L + 1 + k) % 512 = 448`, including at the boundary `8L % 512 = 448`. -/
theorem zero_bits_matches_spec_k (L : Nat) :
    0 ≤ zero_bits_i32 (8 * L)
    ∧ (8 * L + 1 + (zero_bits_i32 (8 * L)).toNat) % 512 = 448
    ∧ ∀ j, j < (zero_bits_i32 (8 * L)).toNat → (8 * L + 1 + j) % 512 ≠ 448 := by
  have h := zero_bits_i32_toNat (8 * L)
  have he := zero_bits_i32_eq (8 * L)
  refine ⟨by rw [he]; omega, by rw [h]; omega, ?_⟩
  intro j hj
  rw [h] at hj
  omega

/-- C7: `pad`'s internal divisibility check always succeeds — `pad` never
returns `none`, so the `unwrap` inside `hash` cannot panic. -/
theorem pad_never_fails (data : List Nat) :
    (pad data).isSome = true ∧ pad data ≠ none := by
  rw [pad_eq_some data]
  exact ⟨rfl, by simp⟩

/-- C8: a received tag whose length differs from 32 bytes is rejected
(`verify_hmac` returns `false`, it does not error), under the modelled
contract of the constant-time-equality collaborator. -/
theorem verify_hmac_wrong_length_tag (m k t : List Nat) (h : t.length ≠ 32) :
    verify_hmac m t k = false := by
  have hl := hmac_length32 m k
  simp only [verify_hmac, ct_eq]
  apply beq_eq_false_iff_ne.mpr
  intro he
  rw [he] at hl
  exact h hl

/-- Witness for C8 with an empty received tag. -/
theorem verify_hmac_wrong_length_tag_witness :
    verify_hmac [] [] [] = false :=
  verify_hmac_wrong_length_tag [] [] [] (by norm_num)

/-- C9: the digest of the empty byte sequence is the well-known SHA-256
empty-string digest `e3b0c442...52b855`. -/
theorem hash_empty_known_answer :
    hash [] =
      [0xe3, 0xb0, 0xc4, 0x42, 0x98, 0xfc, 0x1c, 0x14, 0x9a, 0xfb, 0xf4, 0xc8,
       0x99, 0x6f, 0xb9, 0x24, 0x27, 0xae, 0x41, 0xe4, 0x64, 0x9b, 0x93, 0x4c,
       0xa4, 0x95, 0x99, 0x1b, 0x78, 0x52, 0xb8, 0x55] := by
  decide

/-- C10: for messages whose bit length fits in `i32`, the padded output is the
smallest multiple of 64 bytes that is at least `len m + 9`, `hash` therefore
processes exactly `⌈(len m + 9) / 64⌉` blocks, and a message with
`len m % 64 ≥ 56` spills into one extra all-padding block. -/
theorem pad_output_block_structure (m : List Nat) (h : 8 * m.length < 2 ^ 31) :
    (pad m).map List.length = some (64 * ((m.length + 9 + 63) / 64))
    ∧ (pad m).map (fun out => (parse out).length) = some ((m.length + 9 + 63) / 64)
    ∧ 64 ∣ 64 * ((m.length + 9 + 63) / 64)
    ∧ m.length + 9 ≤ 64 * ((m.length + 9 + 63) / 64)
    ∧ 64 * ((m.length + 9 + 63) / 64) < m.length + 9 + 64
    ∧ (56 ≤ m.length % 64 → (m.length + 9 + 63) / 64 = m.length / 64 + 2) := by
  have holen : ((chunks 8 (pad_bit_vec m)).map bitsToByte).length
      = (8 * m.length + 65 + (959 - m.length * 8 % 512) % 512) / 8 := by
    rw [pad_output_length, pad_bit_vec_length]
  refine ⟨?_, ?_, ⟨_, rfl⟩, by omega, by omega, by intro hb; omega⟩
  · rw [pad_eq_some m, Option.map_some']
    congr 1
    omega
  · rw [pad_eq_some m, Option.map_some']
    congr 1
    unfold parse
    rw [List.length_map]
    rw [chunks_length_of_mul (by norm_num)
      (((chunks 8 (pad_bit_vec m)).map bitsToByte).length / 64) _ (by omega)]
    omega

/-- Witness for C10 at the empty message: one 64-byte block. -/
theorem pad_output_block_structure_witness :
    (pad []).map List.length = some 64
      ∧ (pad []).map (fun out => (parse out).length) = some 1 := by
  have h := pad_output_block_structure [] (by norm_num)
  exact ⟨h.1, h.2.1⟩

end BernieHmac
